import Mathlib

/-!
Verification of the fprime2yamcs translator core: a shallow embedding of
`fprime_parser.py` (class `DeploymentDictLoader`) and of the translation
logic in `main.py` (the `type_contains_array` analyzer, the two-pass type
emission, the packet emission loop and the command emission loop), together
with theorems about the embedded functions.
-/

set_option autoImplicit false

namespace F2Y

/-!
### Dictionary primitives

Python `dict` objects are modelled as association lists looked up by first
match (keys are unique in every dict the source builds). `dictInsert`
mirrors the statement `d[k] = v`: an existing key keeps its position and
receives the new value, a new key is appended at the end. `dictOfList`
mirrors building a dict from a sequence of key/value pairs (a later pair
with the same key wins). `dictGet` mirrors `d.get(k)` and `d[k]`.
`insertSet` mirrors `set.add` on a set modelled as a duplicate-free list.
-/

def dictGet {β : Type} (k : String) : List (String × β) → Option β
  | [] => none
  | (k1, v) :: rest => if k1 = k then some v else dictGet k rest

def dictInsert {β : Type} (k : String) (v : β) : List (String × β) → List (String × β)
  | [] => [(k, v)]
  | (k1, v1) :: rest => if k1 = k then (k, v) :: rest else (k1, v1) :: dictInsert k v rest

def dictOfList {β : Type} (l : List (String × β)) : List (String × β) :=
  l.foldl (fun d e => dictInsert e.1 e.2 d) []

def insertSet (x : String) (ss : List String) : List String :=
  if x ∈ ss then ss else ss ++ [x]

/-!
### Raw source dictionary model (the inputs of `DeploymentDictLoader`)

A raw type reference is the nested type object of the JSON dictionary: a
`kind` string, a `name`, and a declared `size` (meaningful for string
kinds). A raw type definition is dispatched on its kind exactly as in
`_get_types_decl`; every kind other than struct, array and enum falls into
the catch-all `native` branch of the source. Struct members model a JSON
object (unique keys); type definitions, enumerated constants, channels,
commands and formal parameters model JSON arrays.
-/

structure RawTypeRef where
  kind : String
  name : String
  size : Int
deriving DecidableEq

inductive RawDef where
  | struct (members : List (String × RawTypeRef))
  | array (size : Int) (elementType : RawTypeRef)
  | enum (representationType : RawTypeRef) (enumeratedConstants : List (String × Int))
  | native
deriving DecidableEq

structure RawChannel where
  name : String
  type : RawTypeRef
deriving DecidableEq

structure RawParam where
  name : String
  type : RawTypeRef
deriving DecidableEq

structure RawCommand where
  name : String
  opcode : Int
  formalParams : Option (List RawParam)
deriving DecidableEq

structure RawData where
  typeDefinitions : List (String × RawDef)
  telemetryChannels : List RawChannel
  commands : List RawCommand
deriving DecidableEq

/-!
### Resolved type table model (the output of `_get_types_decl` and `parse`)
-/

inductive TypeInfo where
  | native
  | enum (representationtype : String) (values : List (String × Int))
  | struct (members : List (String × String))
  | array (size : Int) (elementType : String)
deriving DecidableEq

/-- Mirrors the name computed by `_format_type_name`: a string kind gets its
declared size embedded in the name, every other kind keeps its name. -/
def fmtName (r : RawTypeRef) : String :=
  if r.kind = "string" then r.name ++ toString r.size else r.name

/-- Mirrors `_format_type_name` together with its side effect on
`self.stringTypes`: returns the formatted name and the updated
discovered-string set. -/
def fmtRef (r : RawTypeRef) (ss : List String) : String × List String :=
  (fmtName r, if r.kind = "string" then insertSet (fmtName r) ss else ss)

/-- Mirrors the member dict comprehension of the struct branch of
`_get_types_decl`, threading the discovered-string set. -/
def fmtMembers : List (String × RawTypeRef) → List String → List (String × String) × List String
  | [], ss => ([], ss)
  | (n, r) :: rest, ss =>
    let p := fmtRef r ss
    let q := fmtMembers rest p.2
    ((n, p.1) :: q.1, q.2)

/-- Mirrors the body of the loop of `_get_types_decl`: one raw definition is
turned into one processed descriptor. The array branch copies the declared
size verbatim with no validation; the enum branch resolves only the
representation type and builds the value dict from the constant list. -/
def processDef (d : RawDef) (ss : List String) : TypeInfo × List String :=
  match d with
  | RawDef.struct ms =>
    let p := fmtMembers ms ss
    (TypeInfo.struct p.1, p.2)
  | RawDef.array sz et =>
    let p := fmtRef et ss
    (TypeInfo.array sz p.1, p.2)
  | RawDef.enum rt cs =>
    let p := fmtRef rt ss
    (TypeInfo.enum p.1 (dictOfList cs), p.2)
  | RawDef.native => (TypeInfo.native, ss)

/-- Mirrors the loop of `_get_types_decl` over the (already deduplicated)
raw definitions, building `processed_types` in order. -/
def processDefs : List (String × RawDef) → List String → List (String × TypeInfo) × List String
  | [], ss => ([], ss)
  | (n, d) :: rest, ss =>
    let p := processDef d ss
    let q := processDefs rest p.2
    ((n, p.1) :: q.1, q.2)

/-- Mirrors `_get_types_decl`: the raw definitions are first keyed by
qualified name (a dict comprehension, later duplicates win) and then
processed in order. -/
def getTypesDecl (defs : List (String × RawDef)) (ss : List String) : List (String × TypeInfo) × List String :=
  processDefs (dictOfList defs) ss

/-- Mirrors the channel pair construction of `_get_channel_types` before
dict formation, threading the discovered-string set. -/
def chanPairs : List RawChannel → List String → List (String × String) × List String
  | [], ss => ([], ss)
  | c :: rest, ss =>
    let p := fmtRef c.type ss
    let q := chanPairs rest p.2
    ((c.name, p.1) :: q.1, q.2)

/-- Mirrors `_get_channel_types`: a dict comprehension over the channels. -/
def getChannelTypes (cs : List RawChannel) (ss : List String) : List (String × String) × List String :=
  let p := chanPairs cs ss
  (dictOfList p.1, p.2)

/-- Mirrors the formal parameter loop of `_get_commands`: each parameter
becomes a one-entry dict, modelled as a pair. -/
def processParams : List RawParam → List String → List (String × String) × List String
  | [], ss => ([], ss)
  | p :: rest, ss =>
    let q := fmtRef p.type ss
    let r := processParams rest q.2
    ((p.name, q.1) :: r.1, r.2)

structure CmdInfo where
  opcode : Int
  args : List (String × String)
deriving DecidableEq

/-- Mirrors the body of the command loop of `_get_commands`: the opcode is
copied and the argument list built from `formalParams` when present. -/
def processCommand (c : RawCommand) (ss : List String) : CmdInfo × List String :=
  match c.formalParams with
  | some ps =>
    let q := processParams ps ss
    (CmdInfo.mk c.opcode q.1, q.2)
  | none => (CmdInfo.mk c.opcode [], ss)

/-- Mirrors the loop of `_get_commands` before dict formation. -/
def processCommands : List RawCommand → List String → List (String × CmdInfo) × List String
  | [], ss => ([], ss)
  | c :: rest, ss =>
    let p := processCommand c ss
    let q := processCommands rest p.2
    ((c.name, p.1) :: q.1, q.2)

/-- Mirrors `_get_commands`: the dict `commands` is built by assignment in
declaration order, so a repeated command name keeps its first position and
receives the value of the last declaration. -/
def getCommands (cs : List RawCommand) (ss : List String) : List (String × CmdInfo) × List String :=
  let p := processCommands cs ss
  (dictOfList p.1, p.2)

/-- Mirrors the final loop of `parse` (fprime_parser.py lines 141 to 143):
every discovered string name is assigned a native descriptor in the type
declarations dict. -/
def materializeStrings (ss : List String) (td : List (String × TypeInfo)) : List (String × TypeInfo) :=
  ss.foldl (fun d s => dictInsert s TypeInfo.native d) td

/-- Mirrors `DeploymentDictLoader.parse`: types, channels and commands are
extracted in that order (sharing the discovered-string set, initially
empty), then every discovered string is added to the type declarations. -/
def parse (raw : RawData) : List (String × TypeInfo) × List (String × String) × List (String × CmdInfo) :=
  let p1 := getTypesDecl raw.typeDefinitions []
  let p2 := getChannelTypes raw.telemetryChannels p1.2
  let p3 := getCommands raw.commands p2.2
  (materializeStrings p3.2 p1.1, p2.1, p3.1)

/-- Pure view of the descriptor computed for one raw definition; the first
component of `processDef` does not depend on the discovered-string set. -/
def resolveDef (d : RawDef) : TypeInfo := (processDef d []).1

/-- Pure view of the processed command; the first component of
`processCommand` does not depend on the discovered-string set. -/
def cmdOf (c : RawCommand) : CmdInfo := (processCommand c []).1

/-!
### The array-containment analyzer (`type_contains_array` in `main.py`)
-/

/-- Mirrors `type_contains_array` from `main.py`. The Python function
recurses with no guard; the embedding makes the recursion depth explicit
through a fuel parameter, returning `false` when the fuel runs out. On
tables admitting a ranking of the struct member references the result is
independent of the fuel once the fuel exceeds the rank of the queried name
(stability lemmas below), which is the fuel reading of termination of the
source recursion on acyclic tables. -/
def type_contains_array : Nat → String → List (String × TypeInfo) → Bool
  | 0, _, _ => false
  | fuel + 1, type_name, types_decl =>
    match dictGet type_name types_decl with
    | some (TypeInfo.array _ _) => true
    | some (TypeInfo.struct members) =>
        members.any fun m => type_contains_array fuel m.2 types_decl
    | _ => false

/-- The type names referenced by a resolved descriptor: struct member
types, the array element type, the enum representation type. -/
def refsOf : TypeInfo → List String
  | TypeInfo.native => []
  | TypeInfo.enum rt _ => [rt]
  | TypeInfo.struct ms => ms.map Prod.snd
  | TypeInfo.array _ et => [et]

/-- The references made by composite (struct and array) descriptors only. -/
def compositeRefs : TypeInfo → List String
  | TypeInfo.struct ms => ms.map Prod.snd
  | TypeInfo.array _ et => [et]
  | _ => []

/-- A table is closed when every reference reachable from one of its
entries is itself a key of the table. -/
def ClosedTable (td : List (String × TypeInfo)) : Prop :=
  ∀ e ∈ td, ∀ r ∈ refsOf e.2, (dictGet r td).isSome = true

instance (td : List (String × TypeInfo)) : Decidable (ClosedTable td) :=
  List.decidableBAll _ td

def isLeaf : TypeInfo → Bool
  | TypeInfo.native => true
  | TypeInfo.enum _ _ => true
  | _ => false

/-- Every reference made by a struct or array entry resolves to a native or
enum entry of the table (the two-level shape assumed by the source). -/
def LeafRefs (td : List (String × TypeInfo)) : Prop :=
  ∀ e ∈ td, ∀ r ∈ compositeRefs e.2, Option.map isLeaf (dictGet r td) = some true

instance (td : List (String × TypeInfo)) : Decidable (LeafRefs td) :=
  List.decidableBAll _ td

/-- A ranking certifies that the struct member reference graph of a table
is acyclic: every member type of a struct entry has strictly smaller rank
than the entry. -/
def entryRankOk (rank : String → Nat) (e : String × TypeInfo) : Bool :=
  match e.2 with
  | TypeInfo.struct ms => ms.all fun m => rank m.2 < rank e.1
  | _ => true

def WellRanked (td : List (String × TypeInfo)) (rank : String → Nat) : Prop :=
  ∀ e ∈ td, entryRankOk rank e = true

instance (td : List (String × TypeInfo)) (rank : String → Nat) : Decidable (WellRanked td rank) :=
  List.decidableBAll _ td

/-- The raw references contained in one raw definition: struct member
types, the array element type, the enum representation type. -/
def rawRefsOfDef : RawDef → List RawTypeRef
  | RawDef.struct ms => ms.map Prod.snd
  | RawDef.array _ et => [et]
  | RawDef.enum rt _ => [rt]
  | RawDef.native => []

/-!
### Schema emission (`main.py`, the four loops after parsing)
-/

inductive Entity where
  | enumType (name : String) (representationtype : String) (values : List (String × Int))
  | primitiveType (name : String)
  | aggregateType (name : String) (members : List (String × String))
  | arrayType (name : String) (elementType : String)
deriving DecidableEq

def Entity.name : Entity → String
  | Entity.enumType n _ _ => n
  | Entity.primitiveType n => n
  | Entity.aggregateType n _ => n
  | Entity.arrayType n _ => n

/-- The type names an emitted aggregate or array entity references (the
claim about dependency order concerns exactly these). -/
def Entity.refs : Entity → List String
  | Entity.aggregateType _ ms => ms.map Prod.snd
  | Entity.arrayType _ et => [et]
  | _ => []

/-- Mirrors the first emission loop of `main.py` (lines 238 to 242): enum
and native entries, in table order. -/
def pass1 (td : List (String × TypeInfo)) : List Entity :=
  td.filterMap fun e =>
    match e.2 with
    | TypeInfo.enum rt vs => some (Entity.enumType e.1 rt vs)
    | TypeInfo.native => some (Entity.primitiveType e.1)
    | _ => none

/-- Mirrors the second emission loop of `main.py` (lines 244 to 249):
struct and array entries, in table order. -/
def pass2 (td : List (String × TypeInfo)) : List Entity :=
  td.filterMap fun e =>
    match e.2 with
    | TypeInfo.struct ms => some (Entity.aggregateType e.1 ms)
    | TypeInfo.array _ et => some (Entity.arrayType e.1 et)
    | _ => none

/-- The full type emission order: the first pass followed by the second. -/
def emittedTypes (td : List (String × TypeInfo)) : List Entity :=
  pass1 td ++ pass2 td

/-- Mirrors the `array_sizes` index recorded during the second pass. -/
def arraySizes (td : List (String × TypeInfo)) : List (String × Int) :=
  td.filterMap fun e =>
    match e.2 with
    | TypeInfo.array sz _ => some (e.1, sz)
    | _ => none

/-- An emitted entity list is dependency ordered when every reference of
every entity names an entity emitted strictly earlier. -/
def depOrderedB : List String → List Entity → Bool
  | _, [] => true
  | seen, e :: rest => (e.refs.all fun r => r ∈ seen) && depOrderedB (seen ++ [e.name]) rest

def DepOrdered (es : List Entity) : Prop := depOrderedB [] es = true

instance (es : List Entity) : Decidable (DepOrdered es) := by
  unfold DepOrdered
  infer_instance

/-- The observable actions of the packet channel loop. The vocabulary
includes a diagnostic action so that emission of warnings is expressible;
the source loop (main.py lines 255 to 260) contains no warning or print
call, so its translation below never produces a `warn` step. -/
inductive PStep where
  | addArray (channel : String) (type : String) (size : Int)
  | addParam (channel : String) (type : Option String)
  | warn (message : String)
deriving DecidableEq

/-- One iteration of the packet channel loop of `main.py` (lines 255 to
260): the channel is looked up in the channel mapping with `.get` (None
when absent); an array field of the recorded size is added when the
resolved type is a key of the array-size index, a scalar field otherwise. -/
def channelStep (channels_types : List (String × String)) (array_sizes : List (String × Int)) (channel_name : String) : PStep :=
  match dictGet channel_name channels_types with
  | some t =>
    match dictGet t array_sizes with
    | some s => PStep.addArray channel_name t s
    | none => PStep.addParam channel_name (some t)
  | none => PStep.addParam channel_name none

/-- The packet channel loop over the channel list of one packet. -/
def packetLoop (channels_types : List (String × String)) (array_sizes : List (String × Int)) : List String → List PStep
  | [] => []
  | cn :: rest => channelStep channels_types array_sizes cn :: packetLoop channels_types array_sizes rest

structure EmittedCommand where
  name : String
  opcode : Int
  params : List (String × String)
deriving DecidableEq

/-- Mirrors the inner argument loop of the command emission code of
`main.py` (lines 269 to 280): parameters accumulate on the command object
until an argument whose type contains an array is found, at which point
the loop stops with the flag set. -/
def commandLoop (fuel : Nat) (types_decl : List (String × TypeInfo)) (acc : List (String × String)) : List (String × String) → List (String × String) × Bool
  | [] => (acc, false)
  | (an, aty) :: rest =>
    if type_contains_array fuel aty types_decl then (acc, true)
    else commandLoop fuel types_decl (acc ++ [(an, aty)]) rest

/-- Mirrors one iteration of the command emission loop of `main.py` (lines
265 to 285): when the flag is set the whole command object is discarded,
otherwise the command is handed to the generator with its accumulated
parameters. -/
def emitCommand (fuel : Nat) (types_decl : List (String × TypeInfo)) (cmd_name : String) (ci : CmdInfo) : Option EmittedCommand :=
  let p := commandLoop fuel types_decl [] ci.args
  if p.2 then none else some (EmittedCommand.mk cmd_name ci.opcode p.1)

/-- The full command emission loop: rejected commands contribute nothing. -/
def emitCommands (fuel : Nat) (types_decl : List (String × TypeInfo)) (commands : List (String × CmdInfo)) : List EmittedCommand :=
  commands.filterMap fun e => emitCommand fuel types_decl e.1 e.2

/-!
### Helper lemmas about the dictionary primitives
-/

theorem dictGet_dictInsert_self {β : Type} (k : String) (v : β) (d : List (String × β)) :
    dictGet k (dictInsert k v d) = some v := by
  induction d with
  | nil => simp [dictInsert, dictGet]
  | cons e rest ih =>
    obtain ⟨k1, v1⟩ := e
    by_cases h : k1 = k
    · simp [dictInsert, h, dictGet]
    · simp [dictInsert, h, dictGet, ih]

theorem dictGet_dictInsert_ne {β : Type} {k1 k : String} (h : k1 ≠ k) (v : β) (d : List (String × β)) :
    dictGet k (dictInsert k1 v d) = dictGet k d := by
  induction d with
  | nil => simp [dictInsert, dictGet, h]
  | cons e rest ih =>
    obtain ⟨k2, v2⟩ := e
    simp only [dictInsert]
    by_cases h2 : k2 = k1
    · rw [if_pos h2]
      simp only [dictGet]
      rw [if_neg h, if_neg (by rw [h2]; exact h)]
    · rw [if_neg h2]
      simp only [dictGet]
      by_cases h3 : k2 = k
      · rw [if_pos h3, if_pos h3]
      · rw [if_neg h3, if_neg h3, ih]

theorem mem_dictInsert {β : Type} {e : String × β} {k : String} {v : β} {d : List (String × β)}
    (h : e ∈ dictInsert k v d) : e = (k, v) ∨ e ∈ d := by
  induction d with
  | nil => simpa [dictInsert] using h
  | cons e1 rest ih =>
    obtain ⟨k1, v1⟩ := e1
    by_cases h1 : k1 = k
    · simp only [dictInsert, h1, if_pos rfl] at h
      rcases List.mem_cons.mp h with h2 | h2
      · exact Or.inl h2
      · exact Or.inr (List.mem_cons_of_mem _ h2)
    · simp only [dictInsert, if_neg h1] at h
      rcases List.mem_cons.mp h with h2 | h2
      · exact Or.inr (List.mem_cons.mpr (Or.inl h2))
      · rcases ih h2 with h3 | h3
        · exact Or.inl h3
        · exact Or.inr (List.mem_cons_of_mem _ h3)

theorem dictGet_isSome_iff {β : Type} {k : String} {d : List (String × β)} :
    (dictGet k d).isSome = true ↔ k ∈ d.map Prod.fst := by
  induction d with
  | nil => simp [dictGet]
  | cons e rest ih =>
    obtain ⟨k1, v1⟩ := e
    by_cases h : k1 = k
    · simp [dictGet, h]
    · simp [dictGet, h, ih, Ne.symm h]

theorem dictGet_mem {β : Type} {k : String} {v : β} {d : List (String × β)}
    (h : dictGet k d = some v) : (k, v) ∈ d := by
  induction d with
  | nil => simp [dictGet] at h
  | cons e rest ih =>
    obtain ⟨k1, v1⟩ := e
    simp only [dictGet] at h
    by_cases h1 : k1 = k
    · rw [if_pos h1] at h
      obtain rfl := Option.some_inj.mp h
      exact List.mem_cons.mpr (Or.inl (by rw [h1]))
    · rw [if_neg h1] at h
      exact List.mem_cons_of_mem _ (ih h)

theorem dictGet_foldl_insert_of_notin {β : Type} (k : String) (l : List (String × β)) :
    ∀ acc : List (String × β), (∀ e ∈ l, e.1 ≠ k) →
      dictGet k (l.foldl (fun d e => dictInsert e.1 e.2 d) acc) = dictGet k acc := by
  induction l with
  | nil => intro acc _; rfl
  | cons e rest ih =>
    intro acc h
    simp only [List.foldl_cons]
    rw [ih _ fun x hx => h x (List.mem_cons_of_mem _ hx)]
    exact dictGet_dictInsert_ne (h e (List.mem_cons_self _ _)) _ _

theorem mem_foldl_insert {β : Type} {e : String × β} (l : List (String × β)) :
    ∀ acc : List (String × β), e ∈ l.foldl (fun d p => dictInsert p.1 p.2 d) acc →
      e ∈ acc ∨ e ∈ l := by
  induction l with
  | nil => intro acc h; exact Or.inl h
  | cons p rest ih =>
    intro acc h
    simp only [List.foldl_cons] at h
    rcases ih _ h with h1 | h1
    · rcases mem_dictInsert h1 with h2 | h2
      · subst h2
        exact Or.inr (List.mem_cons_self _ _)
      · exact Or.inl h2
    · exact Or.inr (List.mem_cons_of_mem _ h1)

theorem mem_dictOfList {β : Type} {e : String × β} {l : List (String × β)}
    (h : e ∈ dictOfList l) : e ∈ l := by
  rcases mem_foldl_insert l [] h with h1 | h1
  · simp at h1
  · exact h1

theorem isSome_foldl_insert {β : Type} {k : String} (l : List (String × β)) :
    ∀ acc : List (String × β), k ∈ l.map Prod.fst ∨ (dictGet k acc).isSome = true →
      (dictGet k (l.foldl (fun d p => dictInsert p.1 p.2 d) acc)).isSome = true := by
  induction l with
  | nil =>
    intro acc h
    rcases h with h | h
    · simp at h
    · exact h
  | cons p rest ih =>
    intro acc h
    simp only [List.foldl_cons]
    apply ih
    rcases h with h | h
    · rw [List.map_cons] at h
      rcases List.mem_cons.mp h with h1 | h1
      · right
        rw [h1, dictGet_dictInsert_self]
        rfl
      · exact Or.inl h1
    · right
      by_cases h1 : p.1 = k
      · rw [h1, dictGet_dictInsert_self]; rfl
      · rw [dictGet_dictInsert_ne h1]; exact h

theorem dictGet_dictOfList_isSome {β : Type} {k : String} {l : List (String × β)}
    (h : k ∈ l.map Prod.fst) : (dictGet k (dictOfList l)).isSome = true :=
  isSome_foldl_insert l [] (Or.inl h)

theorem dictGet_dictOfList_last {β : Type} (l1 l2 : List (String × β)) (k : String) (v : β)
    (h : ∀ e ∈ l2, e.1 ≠ k) :
    dictGet k (dictOfList (l1 ++ (k, v) :: l2)) = some v := by
  unfold dictOfList
  rw [List.foldl_append, List.foldl_cons]
  rw [dictGet_foldl_insert_of_notin k l2 _ h]
  exact dictGet_dictInsert_self k v _

theorem dictInsert_eq_append {β : Type} (k : String) (v : β) (d : List (String × β))
    (h : k ∉ d.map Prod.fst) : dictInsert k v d = d ++ [(k, v)] := by
  induction d with
  | nil => rfl
  | cons e rest ih =>
    obtain ⟨k1, v1⟩ := e
    rw [List.map_cons, List.mem_cons] at h
    push_neg at h
    simp only [dictInsert, List.cons_append]
    rw [if_neg (fun hh : k1 = k => h.1 hh.symm), ih h.2]

theorem foldl_insert_eq_append {β : Type} (l : List (String × β)) :
    ∀ acc : List (String × β), (l.map Prod.fst).Nodup →
      (∀ e ∈ l, e.1 ∉ acc.map Prod.fst) →
      l.foldl (fun d p => dictInsert p.1 p.2 d) acc = acc ++ l := by
  induction l with
  | nil => intro acc _ _; simp
  | cons p rest ih =>
    intro acc hnd hdisj
    rw [List.map_cons, List.nodup_cons] at hnd
    simp only [List.foldl_cons]
    rw [dictInsert_eq_append p.1 p.2 acc (hdisj p (List.mem_cons_self _ _))]
    have hd2 : ∀ e ∈ rest, e.1 ∉ (acc ++ [p]).map Prod.fst := by
      intro e he hc
      rw [List.map_append, List.mem_append] at hc
      rcases hc with hc | hc
      · exact hdisj e (List.mem_cons_of_mem _ he) hc
      · simp only [List.map_cons, List.map_nil, List.mem_singleton] at hc
        exact hnd.1 (hc ▸ List.mem_map_of_mem Prod.fst he)
    rw [ih (acc ++ [p]) hnd.2 hd2]
    simp

theorem dictOfList_eq_self {β : Type} (l : List (String × β)) (h : (l.map Prod.fst).Nodup) :
    dictOfList l = l := by
  unfold dictOfList
  rw [foldl_insert_eq_append l [] h (by simp)]
  simp

/-!
### Helper lemmas about the discovered-string set and materialization
-/

theorem mem_insertSet_of_mem {x : String} {ss : List String} (y : String) (h : x ∈ ss) :
    x ∈ insertSet y ss := by
  unfold insertSet
  split
  · exact h
  · exact List.mem_append_left _ h

theorem self_mem_insertSet (x : String) (ss : List String) : x ∈ insertSet x ss := by
  unfold insertSet
  split
  · assumption
  · exact List.mem_append_right _ (List.mem_singleton.mpr rfl)

theorem materializeStrings_cons (s : String) (ss : List String) (td : List (String × TypeInfo)) :
    materializeStrings (s :: ss) td = materializeStrings ss (dictInsert s TypeInfo.native td) := rfl

theorem mem_materializeStrings {e : String × TypeInfo} (ss : List String) :
    ∀ td : List (String × TypeInfo), e ∈ materializeStrings ss td →
      e ∈ td ∨ e.2 = TypeInfo.native := by
  induction ss with
  | nil => intro td h; exact Or.inl h
  | cons s rest ih =>
    intro td h
    rw [materializeStrings_cons] at h
    rcases ih _ h with h1 | h1
    · rcases mem_dictInsert h1 with h2 | h2
      · subst h2
        exact Or.inr rfl
      · exact Or.inl h2
    · exact Or.inr h1

theorem dictGet_materializeStrings_native {s : String} (ss : List String) :
    ∀ td : List (String × TypeInfo), s ∈ ss ∨ dictGet s td = some TypeInfo.native →
      dictGet s (materializeStrings ss td) = some TypeInfo.native := by
  induction ss with
  | nil =>
    intro td h
    rcases h with h | h
    · simp at h
    · exact h
  | cons s1 rest ih =>
    intro td h
    rw [materializeStrings_cons]
    apply ih
    rcases h with h | h
    · rcases List.mem_cons.mp h with h1 | h1
      · right
        rw [h1, dictGet_dictInsert_self]
      · exact Or.inl h1
    · right
      by_cases h1 : s1 = s
      · rw [h1, dictGet_dictInsert_self]
      · rw [dictGet_dictInsert_ne h1, h]

theorem dictGet_materializeStrings_of_notin {k : String} (ss : List String) :
    ∀ td : List (String × TypeInfo), k ∉ ss →
      dictGet k (materializeStrings ss td) = dictGet k td := by
  induction ss with
  | nil => intro td _; rfl
  | cons s rest ih =>
    intro td h
    rw [materializeStrings_cons]
    rw [ih _ fun hc => h (List.mem_cons_of_mem _ hc)]
    exact dictGet_dictInsert_ne (fun hc => h (List.mem_cons.mpr (Or.inl hc.symm))) _ _

theorem isSome_materializeStrings {k : String} (ss : List String) :
    ∀ td : List (String × TypeInfo), (dictGet k td).isSome = true →
      (dictGet k (materializeStrings ss td)).isSome = true := by
  induction ss with
  | nil => intro td h; exact h
  | cons s rest ih =>
    intro td h
    rw [materializeStrings_cons]
    apply ih
    by_cases h1 : s = k
    · rw [h1, dictGet_dictInsert_self]; rfl
    · rw [dictGet_dictInsert_ne h1]; exact h

/-!
### Helper lemmas about the array-containment analyzer
-/

theorem list_any_congr {α : Type} {p q : α → Bool} {l : List α} (h : ∀ x ∈ l, p x = q x) :
    l.any p = l.any q := by
  induction l with
  | nil => rfl
  | cons x rest ih =>
    simp only [List.any_cons]
    rw [h x (List.mem_cons_self _ _), ih fun y hy => h y (List.mem_cons_of_mem _ hy)]

theorem tca_of_get_array {fuel : Nat} {t : String} {td : List (String × TypeInfo)}
    {sz : Int} {et : String} (h : dictGet t td = some (TypeInfo.array sz et)) :
    type_contains_array (fuel + 1) t td = true := by
  simp only [type_contains_array]
  rw [h]

theorem tca_of_get_struct {fuel : Nat} {t : String} {td : List (String × TypeInfo)}
    {ms : List (String × String)} (h : dictGet t td = some (TypeInfo.struct ms)) :
    type_contains_array (fuel + 1) t td = ms.any fun m => type_contains_array fuel m.2 td := by
  simp only [type_contains_array]
  rw [h]

theorem tca_of_get_none {fuel : Nat} {t : String} {td : List (String × TypeInfo)}
    (h : dictGet t td = none) : type_contains_array (fuel + 1) t td = false := by
  simp only [type_contains_array]
  rw [h]

theorem tca_of_get_native {fuel : Nat} {t : String} {td : List (String × TypeInfo)}
    (h : dictGet t td = some TypeInfo.native) : type_contains_array (fuel + 1) t td = false := by
  simp only [type_contains_array]
  rw [h]

theorem tca_of_get_enum {fuel : Nat} {t : String} {td : List (String × TypeInfo)}
    {rt : String} {vs : List (String × Int)} (h : dictGet t td = some (TypeInfo.enum rt vs)) :
    type_contains_array (fuel + 1) t td = false := by
  simp only [type_contains_array]
  rw [h]

theorem rank_lt_of_wellRanked {td : List (String × TypeInfo)} {rank : String → Nat} {t : String}
    {ms : List (String × String)} (hw : WellRanked td rank)
    (h : dictGet t td = some (TypeInfo.struct ms)) : ∀ m ∈ ms, rank m.2 < rank t := by
  intro m hm
  have he := hw (t, TypeInfo.struct ms) (dictGet_mem h)
  simp only [entryRankOk] at he
  rw [List.all_eq_true] at he
  exact of_decide_eq_true (he m hm)

theorem type_contains_array_step {td : List (String × TypeInfo)} {rank : String → Nat}
    (hw : WellRanked td rank) :
    ∀ fuel t, rank t < fuel → type_contains_array fuel t td = type_contains_array (fuel + 1) t td := by
  intro fuel
  induction fuel with
  | zero => intro t h; exact absurd h (Nat.not_lt_zero _)
  | succ n ih =>
    intro t h
    cases hg : dictGet t td with
    | none => rw [tca_of_get_none hg, tca_of_get_none hg]
    | some ti =>
      cases ti with
      | native => rw [tca_of_get_native hg, tca_of_get_native hg]
      | enum rt vs => rw [tca_of_get_enum hg, tca_of_get_enum hg]
      | array sz et => rw [tca_of_get_array hg, tca_of_get_array hg]
      | struct ms =>
        rw [tca_of_get_struct hg, tca_of_get_struct hg]
        apply list_any_congr
        intro m hm
        have hlt := rank_lt_of_wellRanked hw hg m hm
        exact ih m.2 (by omega)

theorem type_contains_array_stable {td : List (String × TypeInfo)} {rank : String → Nat}
    (hw : WellRanked td rank) (t : String) {fuel1 fuel2 : Nat}
    (h1 : rank t < fuel1) (hle : fuel1 ≤ fuel2) :
    type_contains_array fuel1 t td = type_contains_array fuel2 t td := by
  induction fuel2, hle using Nat.le_induction with
  | base => rfl
  | succ n hn ih =>
    rw [ih, type_contains_array_step hw n t (by omega)]

theorem type_contains_array_fuel_eq {td : List (String × TypeInfo)} {rank : String → Nat}
    (hw : WellRanked td rank) (t : String) {fuel1 fuel2 : Nat}
    (h1 : rank t < fuel1) (h2 : rank t < fuel2) :
    type_contains_array fuel1 t td = type_contains_array fuel2 t td := by
  rcases Nat.le_total fuel1 fuel2 with h | h
  · exact type_contains_array_stable hw t h1 h
  · exact (type_contains_array_stable hw t h2 h).symm

/-!
### Helper lemmas about the parser: pure views of the first components
-/

theorem fmtRef_fst (r : RawTypeRef) (ss : List String) : (fmtRef r ss).1 = fmtName r := rfl

theorem fmtMembers_fst (ms : List (String × RawTypeRef)) (ss : List String) :
    (fmtMembers ms ss).1 = ms.map fun p => (p.1, fmtName p.2) := by
  induction ms generalizing ss with
  | nil => rfl
  | cons p rest ih =>
    obtain ⟨n, r⟩ := p
    simp only [fmtMembers, List.map_cons, List.cons.injEq]
    exact ⟨rfl, ih _⟩

theorem processDef_fst (d : RawDef) (ss : List String) : (processDef d ss).1 = resolveDef d := by
  cases d with
  | struct ms =>
    simp only [processDef, resolveDef, fmtMembers_fst]
  | array sz et => rfl
  | enum rt cs => rfl
  | native => rfl

theorem processDefs_fst (l : List (String × RawDef)) (ss : List String) :
    (processDefs l ss).1 = l.map fun p => (p.1, resolveDef p.2) := by
  induction l generalizing ss with
  | nil => rfl
  | cons p rest ih =>
    obtain ⟨n, d⟩ := p
    simp only [processDefs, List.map_cons, List.cons.injEq]
    exact ⟨by rw [processDef_fst], ih _⟩

theorem chanPairs_fst (cs : List RawChannel) (ss : List String) :
    (chanPairs cs ss).1 = cs.map fun c => (c.name, fmtName c.type) := by
  induction cs generalizing ss with
  | nil => rfl
  | cons c rest ih =>
    simp only [chanPairs, List.map_cons, List.cons.injEq]
    exact ⟨rfl, ih _⟩

theorem processParams_fst (ps : List RawParam) (ss : List String) :
    (processParams ps ss).1 = ps.map fun p => (p.name, fmtName p.type) := by
  induction ps generalizing ss with
  | nil => rfl
  | cons p rest ih =>
    simp only [processParams, List.map_cons, List.cons.injEq]
    exact ⟨rfl, ih _⟩

theorem processCommand_fst (c : RawCommand) (ss : List String) :
    (processCommand c ss).1 = cmdOf c := by
  cases hp : c.formalParams with
  | none => simp only [processCommand, cmdOf, hp]
  | some ps => simp only [processCommand, cmdOf, hp, processParams_fst]

theorem processCommands_fst (cs : List RawCommand) (ss : List String) :
    (processCommands cs ss).1 = cs.map fun c => (c.name, cmdOf c) := by
  induction cs generalizing ss with
  | nil => rfl
  | cons c rest ih =>
    simp only [processCommands, List.map_cons, List.cons.injEq]
    exact ⟨by rw [processCommand_fst], ih _⟩

/-- The references of a resolved descriptor are exactly the formatted names
of the raw references of its declaration. -/
theorem refsOf_resolveDef (d : RawDef) :
    refsOf (resolveDef d) = (rawRefsOfDef d).map fmtName := by
  cases d with
  | struct ms =>
    simp only [resolveDef, processDef, fmtMembers_fst, refsOf, rawRefsOfDef, List.map_map]
    rfl
  | array sz et => rfl
  | enum rt cs => rfl
  | native => rfl

/-!
### Helper lemmas about the parser: the discovered-string set only grows
-/

theorem fmtRef_mono {x : String} {ss : List String} (r : RawTypeRef) (h : x ∈ ss) :
    x ∈ (fmtRef r ss).2 := by
  simp only [fmtRef]
  split
  · exact mem_insertSet_of_mem _ h
  · exact h

theorem fmtMembers_mono {x : String} (ms : List (String × RawTypeRef)) :
    ∀ ss : List String, x ∈ ss → x ∈ (fmtMembers ms ss).2 := by
  induction ms with
  | nil => intro ss h; exact h
  | cons p rest ih =>
    intro ss h
    obtain ⟨n, r⟩ := p
    simp only [fmtMembers]
    exact ih _ (fmtRef_mono r h)

theorem processDef_mono {x : String} (d : RawDef) {ss : List String} (h : x ∈ ss) :
    x ∈ (processDef d ss).2 := by
  cases d with
  | struct ms => exact fmtMembers_mono ms ss h
  | array sz et => exact fmtRef_mono et h
  | enum rt cs => exact fmtRef_mono rt h
  | native => exact h

theorem processDefs_mono {x : String} (l : List (String × RawDef)) :
    ∀ ss : List String, x ∈ ss → x ∈ (processDefs l ss).2 := by
  induction l with
  | nil => intro ss h; exact h
  | cons p rest ih =>
    intro ss h
    obtain ⟨n, d⟩ := p
    simp only [processDefs]
    exact ih _ (processDef_mono d h)

theorem chanPairs_mono {x : String} (cs : List RawChannel) :
    ∀ ss : List String, x ∈ ss → x ∈ (chanPairs cs ss).2 := by
  induction cs with
  | nil => intro ss h; exact h
  | cons c rest ih =>
    intro ss h
    simp only [chanPairs]
    exact ih _ (fmtRef_mono c.type h)

theorem processParams_mono {x : String} (ps : List RawParam) :
    ∀ ss : List String, x ∈ ss → x ∈ (processParams ps ss).2 := by
  induction ps with
  | nil => intro ss h; exact h
  | cons p rest ih =>
    intro ss h
    simp only [processParams]
    exact ih _ (fmtRef_mono p.type h)

theorem processCommand_mono {x : String} (c : RawCommand) {ss : List String} (h : x ∈ ss) :
    x ∈ (processCommand c ss).2 := by
  cases hp : c.formalParams with
  | none => simp only [processCommand, hp]; exact h
  | some ps => simp only [processCommand, hp]; exact processParams_mono ps ss h

theorem processCommands_mono {x : String} (cs : List RawCommand) :
    ∀ ss : List String, x ∈ ss → x ∈ (processCommands cs ss).2 := by
  induction cs with
  | nil => intro ss h; exact h
  | cons c rest ih =>
    intro ss h
    simp only [processCommands]
    exact ih _ (processCommand_mono c h)

/-!
### Helper lemmas about the parser: every string reference gets registered
-/

theorem fmtRef_registers {r : RawTypeRef} (ss : List String) (h : r.kind = "string") :
    fmtName r ∈ (fmtRef r ss).2 := by
  simp only [fmtRef, if_pos h]
  exact self_mem_insertSet _ _

theorem fmtMembers_registers {n : String} {rr : RawTypeRef} (ms : List (String × RawTypeRef)) :
    ∀ ss : List String, (n, rr) ∈ ms → rr.kind = "string" → fmtName rr ∈ (fmtMembers ms ss).2 := by
  induction ms with
  | nil => intro ss h; simp at h
  | cons p rest ih =>
    intro ss h hk
    obtain ⟨n0, r0⟩ := p
    simp only [fmtMembers]
    rcases List.mem_cons.mp h with h1 | h1
    · obtain ⟨rfl, rfl⟩ := Prod.mk.injEq .. ▸ h1
      exact fmtMembers_mono rest _ (fmtRef_registers ss hk)
    · exact ih _ h1 hk

theorem processDef_registers {rr : RawTypeRef} {d : RawDef} (ss : List String)
    (h : rr ∈ rawRefsOfDef d) (hk : rr.kind = "string") :
    fmtName rr ∈ (processDef d ss).2 := by
  cases d with
  | struct ms =>
    simp only [rawRefsOfDef] at h
    obtain ⟨p, hp, hpe⟩ := List.mem_map.mp h
    obtain ⟨n, r⟩ := p
    cases hpe
    exact fmtMembers_registers ms ss hp hk
  | array sz et =>
    simp only [rawRefsOfDef, List.mem_singleton] at h
    subst h
    exact fmtRef_registers ss hk
  | enum rt cs =>
    simp only [rawRefsOfDef, List.mem_singleton] at h
    subst h
    exact fmtRef_registers ss hk
  | native => simp [rawRefsOfDef] at h

theorem processDefs_registers {rr : RawTypeRef} {n : String} {d : RawDef}
    (l : List (String × RawDef)) :
    ∀ ss : List String, (n, d) ∈ l → rr ∈ rawRefsOfDef d → rr.kind = "string" →
      fmtName rr ∈ (processDefs l ss).2 := by
  induction l with
  | nil => intro ss h; simp at h
  | cons p rest ih =>
    intro ss h hr hk
    obtain ⟨n0, d0⟩ := p
    simp only [processDefs]
    rcases List.mem_cons.mp h with h1 | h1
    · obtain ⟨rfl, rfl⟩ := Prod.mk.injEq .. ▸ h1
      exact processDefs_mono rest _ (processDef_registers ss hr hk)
    · exact ih _ h1 hr hk

/-!
### Helper lemmas about schema emission
-/

theorem pass1_refs {e : Entity} {td : List (String × TypeInfo)} (h : e ∈ pass1 td) :
    e.refs = [] := by
  obtain ⟨p, hp, hpe⟩ := List.mem_filterMap.mp h
  obtain ⟨n, ti⟩ := p
  cases ti with
  | native => cases hpe; rfl
  | enum rt vs => cases hpe; rfl
  | struct ms => simp at hpe
  | array sz et => simp at hpe

theorem mem_pass1_name {r : String} {td : List (String × TypeInfo)} {ti : TypeInfo}
    (hg : dictGet r td = some ti) (hl : isLeaf ti = true) : r ∈ (pass1 td).map Entity.name := by
  induction td with
  | nil => simp [dictGet] at hg
  | cons e rest ih =>
    obtain ⟨k, v⟩ := e
    simp only [dictGet] at hg
    by_cases h1 : k = r
    · rw [if_pos h1] at hg
      obtain rfl := Option.some_inj.mp hg
      cases v with
      | native => subst h1; simp [pass1, List.filterMap_cons, Entity.name]
      | enum rt vs => subst h1; simp [pass1, List.filterMap_cons, Entity.name]
      | struct ms => simp [isLeaf] at hl
      | array sz et => simp [isLeaf] at hl
    · rw [if_neg h1] at hg
      have hmem := ih hg
      cases v with
      | native =>
        simp only [pass1, List.filterMap_cons] at hmem ⊢
        rw [List.map_cons]
        exact List.mem_cons_of_mem _ hmem
      | enum rt vs =>
        simp only [pass1, List.filterMap_cons] at hmem ⊢
        rw [List.map_cons]
        exact List.mem_cons_of_mem _ hmem
      | struct ms =>
        simp only [pass1, List.filterMap_cons] at hmem ⊢
        exact hmem
      | array sz et =>
        simp only [pass1, List.filterMap_cons] at hmem ⊢
        exact hmem

theorem mem_pass2 {e : Entity} {td : List (String × TypeInfo)} (h : e ∈ pass2 td) :
    ∃ p ∈ td, (∃ ms, p.2 = TypeInfo.struct ms ∧ e = Entity.aggregateType p.1 ms) ∨
      (∃ sz et, p.2 = TypeInfo.array sz et ∧ e = Entity.arrayType p.1 et) := by
  obtain ⟨p, hp, hpe⟩ := List.mem_filterMap.mp h
  obtain ⟨n, ti⟩ := p
  cases ti with
  | native => simp at hpe
  | enum rt vs => simp at hpe
  | struct ms =>
    cases hpe
    exact ⟨(n, TypeInfo.struct ms), hp, Or.inl ⟨ms, rfl, rfl⟩⟩
  | array sz et =>
    cases hpe
    exact ⟨(n, TypeInfo.array sz et), hp, Or.inr ⟨sz, et, rfl, rfl⟩⟩

theorem depOrderedB_of_refs_seen (l : List Entity) :
    ∀ seen : List String, (∀ e ∈ l, ∀ r ∈ e.refs, r ∈ seen) → depOrderedB seen l = true := by
  induction l with
  | nil => intro seen _; rfl
  | cons e rest ih =>
    intro seen h
    simp only [depOrderedB, Bool.and_eq_true]
    constructor
    · rw [List.all_eq_true]
      intro r hr
      exact decide_eq_true (h e (List.mem_cons_self _ _) r hr)
    · exact ih _ fun x hx r hr => List.mem_append_left _ (h x (List.mem_cons_of_mem _ hx) r hr)

theorem depOrderedB_append_empty_refs (l1 l2 : List Entity) :
    ∀ seen : List String, (∀ e ∈ l1, e.refs = []) →
      depOrderedB seen (l1 ++ l2) = depOrderedB (seen ++ l1.map Entity.name) l2 := by
  induction l1 with
  | nil => intro seen _; simp
  | cons e rest ih =>
    intro seen h
    simp only [List.cons_append, depOrderedB]
    rw [h e (List.mem_cons_self _ _)]
    simp only [List.all_nil, Bool.true_and]
    rw [List.append_eq, ih _ fun x hx => h x (List.mem_cons_of_mem _ hx)]
    rw [List.map_cons, List.append_assoc]
    rfl

theorem commandLoop_flag (fuel : Nat) (td : List (String × TypeInfo)) (args : List (String × String)) :
    ∀ acc, (commandLoop fuel td acc args).2 = args.any fun a => type_contains_array fuel a.2 td := by
  induction args with
  | nil => intro acc; rfl
  | cons a rest ih =>
    intro acc
    obtain ⟨an, aty⟩ := a
    simp only [commandLoop, List.any_cons]
    by_cases h : type_contains_array fuel aty td
    · rw [if_pos h]
      simp only [h, Bool.true_or]
    · rw [if_neg h]
      simp only [Bool.not_eq_true] at h
      rw [ih]
      simp [h]

theorem commandLoop_no_array {fuel : Nat} {td : List (String × TypeInfo)}
    (args : List (String × String))
    (h : ∀ a ∈ args, type_contains_array fuel a.2 td = false) :
    ∀ acc, commandLoop fuel td acc args = (acc ++ args, false) := by
  induction args with
  | nil => intro acc; simp [commandLoop]
  | cons a rest ih =>
    intro acc
    obtain ⟨an, aty⟩ := a
    simp only [commandLoop]
    rw [if_neg (by rw [h (an, aty) (List.mem_cons_self _ _)]; simp)]
    rw [ih (fun x hx => h x (List.mem_cons_of_mem _ hx))]
    simp

/-!
### The claims
-/

/-- Claim C1: over a resolved type table whose struct member references
admit a ranking (the acyclicity precondition stated by the source for this
analyzer) and with fuel beyond the rank of the queried name,
`type_contains_array` returns true iff the table maps the name to an array
descriptor, or to a struct descriptor one of whose member types satisfies
`type_contains_array`; and it returns false when the name maps to a native
or enum descriptor, and also when the name is absent from the table. -/
theorem claim_C1 (td : List (String × TypeInfo)) (rank : String → Nat) (t : String) (fuel : Nat)
    (hw : WellRanked td rank) (hf : rank t < fuel) :
    (type_contains_array fuel t td = true ↔
      (∃ sz et, dictGet t td = some (TypeInfo.array sz et)) ∨
      (∃ ms, dictGet t td = some (TypeInfo.struct ms) ∧
        ∃ m ∈ ms, type_contains_array fuel m.2 td = true)) ∧
    ((dictGet t td = none ∨ dictGet t td = some TypeInfo.native ∨
        (∃ rt vs, dictGet t td = some (TypeInfo.enum rt vs))) →
      type_contains_array fuel t td = false) := by
  obtain ⟨n, rfl⟩ : ∃ n, fuel = n + 1 := ⟨fuel - 1, by omega⟩
  cases hg : dictGet t td with
  | none => rw [tca_of_get_none hg]; simp
  | some ti =>
    cases ti with
    | native => rw [tca_of_get_native hg]; simp
    | enum rt vs => rw [tca_of_get_enum hg]; simp
    | array sz et => rw [tca_of_get_array hg]; simp
    | struct ms =>
      have hstep : ∀ m ∈ ms, type_contains_array n m.2 td = type_contains_array (n + 1) m.2 td := by
        intro m hm
        have hlt := rank_lt_of_wellRanked hw hg m hm
        exact type_contains_array_fuel_eq hw m.2 (by omega) (by omega)
      rw [tca_of_get_struct hg, list_any_congr hstep]
      simp [List.any_eq_true]

/-- Witness for claim C1: its hypotheses hold at a concrete ranked table,
and the containment recurrence decides the struct case there. -/
theorem claim_C1_witness :
    type_contains_array 2 "S"
      [("S", TypeInfo.struct [("m", "A")]), ("A", TypeInfo.array 2 "N")] = true := by
  have h := claim_C1 [("S", TypeInfo.struct [("m", "A")]), ("A", TypeInfo.array 2 "N")]
    (fun t => if t = "S" then 1 else 0) "S" 2 (by decide) (by decide)
  exact h.1.mpr (Or.inr ⟨[("m", "A")], by decide, ("m", "A"), by decide, by decide⟩)

/-- Claim C2: one command of the emission loop is emitted iff none of its
argument types satisfies the containment analyzer; when it is emitted it
carries its full ordered argument list, and when any argument type
contains an array the command contributes nothing at all to the output. -/
theorem claim_C2 (fuel : Nat) (td : List (String × TypeInfo)) (cmd_name : String) (ci : CmdInfo) :
    emitCommand fuel td cmd_name ci =
      (if ci.args.any (fun a => type_contains_array fuel a.2 td) then none
       else some (EmittedCommand.mk cmd_name ci.opcode ci.args)) ∧
    emitCommands fuel td [(cmd_name, ci)] =
      (if ci.args.any (fun a => type_contains_array fuel a.2 td) then []
       else [EmittedCommand.mk cmd_name ci.opcode ci.args]) := by
  have h1 : emitCommand fuel td cmd_name ci =
      if ci.args.any (fun a => type_contains_array fuel a.2 td) then none
      else some (EmittedCommand.mk cmd_name ci.opcode ci.args) := by
    show (let p := commandLoop fuel td [] ci.args
          if p.2 then none else some (EmittedCommand.mk cmd_name ci.opcode p.1)) = _
    by_cases h : (ci.args.any fun a => type_contains_array fuel a.2 td) = true
    · rw [if_pos h]
      have hf := commandLoop_flag fuel td ci.args []
      simp only []
      rw [hf, h]
      simp
    · rw [if_neg h]
      have hno : ∀ a ∈ ci.args, type_contains_array fuel a.2 td = false := by
        intro a ha
        by_contra hc
        rw [Bool.not_eq_false] at hc
        exact h (List.any_eq_true.mpr ⟨a, ha, hc⟩)
      rw [commandLoop_no_array ci.args hno []]
      simp
  refine ⟨h1, ?_⟩
  show List.filterMap _ [(cmd_name, ci)] = _
  rw [List.filterMap_cons]
  simp only [List.filterMap_nil]
  rw [h1]
  by_cases h : (ci.args.any fun a => type_contains_array fuel a.2 td) = true
  · rw [if_pos h, if_pos h]
  · rw [if_neg h, if_neg h]

/-- Counterexample to claim C5: a raw array declaration with size zero is
resolved with no error, and the non-positive size is copied verbatim into
the type table returned by parse. -/
theorem claim_C5_counterexample :
    dictGet "A" (parse (RawData.mk
      [("A", RawDef.array 0 (RawTypeRef.mk "integer" "U32" 0))] [] [])).1 =
      some (TypeInfo.array 0 "U32") := by decide

/-- Claim C5 amended: the array branch of resolution copies the declared
size verbatim, non-positive sizes included, and raises no error: the
declaration always resolves to an array descriptor with that same size. -/
theorem claim_C5_amended (sz : Int) (et : RawTypeRef) (ss : List String) (h : sz ≤ 0) :
    (processDef (RawDef.array sz et) ss).1 = TypeInfo.array sz (fmtName et) := rfl

/-- Witness for claim C5 amended at size zero. -/
theorem claim_C5_witness :
    (0 : Int) ≤ 0 ∧
    (processDef (RawDef.array 0 (RawTypeRef.mk "integer" "U32" 0)) []).1 =
      TypeInfo.array 0 (fmtName (RawTypeRef.mk "integer" "U32" 0)) :=
  ⟨le_refl 0, claim_C5_amended 0 (RawTypeRef.mk "integer" "U32" 0) [] (le_refl 0)⟩

/-- Counterexample to claim C7: when a registered synthetic string name
collides with an existing table key, materialization overwrites the
existing descriptor (a struct here) with a native entry instead of keeping
it unchanged, so materialization is not insert-only. -/
theorem claim_C7_counterexample :
    (getTypesDecl [("MyStr8", RawDef.struct [("m", RawTypeRef.mk "string" "MyStr" 8)])] []).1 =
      [("MyStr8", TypeInfo.struct [("m", "MyStr8")])] ∧
    dictGet "MyStr8" (parse (RawData.mk
      [("MyStr8", RawDef.struct [("m", RawTypeRef.mk "string" "MyStr" 8)])] [] [])).1 =
      some TypeInfo.native := by decide

/-- Claim C7 amended: materialization binds every registered synthetic
name to a native descriptor, inserting it when absent and overwriting any
existing descriptor when present; every key that is not a registered name
keeps its original binding. -/
theorem claim_C7_amended (ss : List String) (td : List (String × TypeInfo)) :
    (∀ s ∈ ss, dictGet s (materializeStrings ss td) = some TypeInfo.native) ∧
    (∀ k, k ∉ ss → dictGet k (materializeStrings ss td) = dictGet k td) :=
  ⟨fun s hs => dictGet_materializeStrings_native ss td (Or.inl hs),
   fun k hk => dictGet_materializeStrings_of_notin ss td hk⟩

/-- Witness for claim C7 amended: a registered name is bound to native and
an unregistered key keeps its binding. -/
theorem claim_C7_witness :
    ("A" ∈ ["A"] ∧
      dictGet "A" (materializeStrings ["A"] [("B", TypeInfo.enum "N" [])]) = some TypeInfo.native) ∧
    ("B" ∉ ["A"] ∧
      dictGet "B" (materializeStrings ["A"] [("B", TypeInfo.enum "N" [])]) =
        dictGet "B" [("B", TypeInfo.enum "N" [])]) :=
  ⟨⟨by decide, (claim_C7_amended ["A"] [("B", TypeInfo.enum "N" [])]).1 "A" (by decide)⟩,
   ⟨by decide, (claim_C7_amended ["A"] [("B", TypeInfo.enum "N" [])]).2 "B" (by decide)⟩⟩

/-- Claim C8: the enum branch of resolution resolves only the
representation type through the interner and builds the enumerator mapping
from the raw constant list by dict formation; when the enumerator names
are distinct the mapping is the constant list verbatim, in declaration
order, duplicate values included. -/
theorem claim_C8 (rt : RawTypeRef) (cs : List (String × Int)) (ss : List String) :
    (processDef (RawDef.enum rt cs) ss).1 = TypeInfo.enum (fmtName rt) (dictOfList cs) ∧
    ((cs.map Prod.fst).Nodup → dictOfList cs = cs) :=
  ⟨rfl, fun h => dictOfList_eq_self cs h⟩

/-- Witness for claim C8: an enum with two distinct enumerator names
sharing the value zero resolves to that list verbatim. -/
theorem claim_C8_witness :
    (([("OK", 0), ("DEGRADED", 0)] : List (String × Int)).map Prod.fst).Nodup ∧
    (processDef (RawDef.enum (RawTypeRef.mk "integer" "U8" 0) [("OK", 0), ("DEGRADED", 0)]) []).1 =
      TypeInfo.enum "U8" [("OK", 0), ("DEGRADED", 0)] := by
  refine ⟨by decide, ?_⟩
  have h := claim_C8 (RawTypeRef.mk "integer" "U8" 0) [("OK", 0), ("DEGRADED", 0)] []
  rw [h.1, h.2 (by decide)]
  decide

/-- Claim C9: on a type table whose struct member references admit a
ranking (an acyclicity certificate for the type reference graph), the
analyzer terminates on every queried name: in the fuel embedding the
result is stable for every fuel beyond the rank of the name, so the
recursion only ever needs finite depth. -/
theorem claim_C9 (td : List (String × TypeInfo)) (rank : String → Nat)
    (hw : WellRanked td rank) (t : String) (fuel : Nat) (hf : rank t < fuel) :
    type_contains_array fuel t td = type_contains_array (rank t + 1) t td :=
  type_contains_array_fuel_eq hw t hf (Nat.lt_succ_self _)

/-- Witness for claim C9 at a concrete ranked table and large fuel. -/
theorem claim_C9_witness :
    type_contains_array 50 "S"
      [("S", TypeInfo.struct [("m", "A")]), ("A", TypeInfo.array 2 "N")] =
    type_contains_array ((if ("S" : String) = "S" then 1 else 0) + 1) "S"
      [("S", TypeInfo.struct [("m", "A")]), ("A", TypeInfo.array 2 "N")] :=
  claim_C9 [("S", TypeInfo.struct [("m", "A")]), ("A", TypeInfo.array 2 "N")]
    (fun t => if t = "S" then 1 else 0) (by decide) "S" 50 (by decide)

/-- Claim C10: when the raw dictionary declares two commands with the same
name, command extraction binds that name to the opcode and argument list
of the last such declaration, the earlier one being discarded (the
extractor has no error or diagnostic output). -/
theorem claim_C10 (pre post : List RawCommand) (c : RawCommand) (ss : List String)
    (h : ∀ c2 ∈ post, c2.name ≠ c.name) :
    dictGet c.name (getCommands (pre ++ c :: post) ss).1 = some (cmdOf c) := by
  show dictGet c.name (dictOfList (processCommands (pre ++ c :: post) ss).1) = some (cmdOf c)
  rw [processCommands_fst, List.map_append, List.map_cons]
  exact dictGet_dictOfList_last _ _ _ _ (by
    intro e he
    obtain ⟨c2, hc2, rfl⟩ := List.mem_map.mp he
    exact h c2 hc2)

/-- Witness for claim C10: two declarations named CMD; the mapping binds
CMD to the opcode and argument list of the second one. -/
theorem claim_C10_witness :
    (∀ c2 ∈ ([] : List RawCommand),
      c2.name ≠ (RawCommand.mk "CMD" 2 (some [RawParam.mk "a" (RawTypeRef.mk "integer" "U32" 0)])).name) ∧
    dictGet "CMD" (getCommands
      [RawCommand.mk "CMD" 1 none,
       RawCommand.mk "CMD" 2 (some [RawParam.mk "a" (RawTypeRef.mk "integer" "U32" 0)])] []).1 =
      some (cmdOf (RawCommand.mk "CMD" 2 (some [RawParam.mk "a" (RawTypeRef.mk "integer" "U32" 0)]))) :=
  ⟨by simp, claim_C10 [RawCommand.mk "CMD" 1 none] []
    (RawCommand.mk "CMD" 2 (some [RawParam.mk "a" (RawTypeRef.mk "integer" "U32" 0)])) [] (by simp)⟩

/-- Counterexample to claim C3: a struct whose member references an
undeclared non-string type name resolves to a table in which that member
type is not a key, so the table returned by parse is not closed. -/
theorem claim_C3_counterexample :
    ¬ ClosedTable (parse (RawData.mk
      [("S", RawDef.struct [("m", RawTypeRef.mk "integer" "U32" 0)])] [] [])).1 := by
  decide

/-- Claim C3 amended: after parse, every synthesized string reference is a
key of the returned table (string closure always holds); and provided
every non-string raw reference occurring in the type definitions names a
declared qualified name, every type name reachable from a table entry is a
key of the table. -/
theorem claim_C3_amended (raw : RawData)
    (h : ∀ d ∈ raw.typeDefinitions, ∀ rr ∈ rawRefsOfDef d.2, rr.kind ≠ "string" →
          rr.name ∈ raw.typeDefinitions.map Prod.fst) :
    ClosedTable (parse raw).1 := by
  intro e he r hr
  have he2 : e ∈ materializeStrings
      (getCommands raw.commands
        (getChannelTypes raw.telemetryChannels (getTypesDecl raw.typeDefinitions []).2).2).2
      (getTypesDecl raw.typeDefinitions []).1 := he
  rcases mem_materializeStrings _ _ he2 with hetd | hnat
  · have hetd2 : e ∈ (processDefs (dictOfList raw.typeDefinitions) []).1 := hetd
    rw [processDefs_fst] at hetd2
    obtain ⟨p, hp, rfl⟩ := List.mem_map.mp hetd2
    have hr2 : r ∈ refsOf (resolveDef p.2) := hr
    rw [refsOf_resolveDef] at hr2
    obtain ⟨rr, hrr, rfl⟩ := List.mem_map.mp hr2
    by_cases hk : rr.kind = "string"
    · have hreg : fmtName rr ∈ (processDefs (dictOfList raw.typeDefinitions) []).2 :=
        processDefs_registers _ _ hp hrr hk
      have hss2 : fmtName rr ∈
          (getChannelTypes raw.telemetryChannels (getTypesDecl raw.typeDefinitions []).2).2 :=
        chanPairs_mono _ _ hreg
      have hss3 : fmtName rr ∈
          (getCommands raw.commands
            (getChannelTypes raw.telemetryChannels (getTypesDecl raw.typeDefinitions []).2).2).2 :=
        processCommands_mono _ _ hss2
      have hnat2 := dictGet_materializeStrings_native _
        ((getTypesDecl raw.typeDefinitions []).1) (Or.inl hss3)
      show (dictGet (fmtName rr) (materializeStrings _ _)).isSome = true
      rw [hnat2]
      rfl
    · have hfn : fmtName rr = rr.name := by simp [fmtName, hk]
      have hname : rr.name ∈ raw.typeDefinitions.map Prod.fst :=
        h p (mem_dictOfList hp) rr hrr hk
      have h1 : (dictGet rr.name (processDefs (dictOfList raw.typeDefinitions) []).1).isSome = true := by
        rw [dictGet_isSome_iff, processDefs_fst, List.map_map]
        have hmm : rr.name ∈ (dictOfList raw.typeDefinitions).map Prod.fst :=
          dictGet_isSome_iff.mp (dictGet_dictOfList_isSome hname)
        exact (List.map_congr_left fun q hq => rfl) ▸ hmm
      rw [hfn]
      exact isSome_materializeStrings _ _ h1
  · rw [hnat] at hr
    simp [refsOf] at hr

/-- Witness for claim C3 amended: a dictionary whose struct members
reference a declared native type and a string type parses to a closed
table. -/
theorem claim_C3_witness :
    (∀ d ∈ [("S", RawDef.struct
        [("m", RawTypeRef.mk "qualifiedIdent" "T" 0), ("s", RawTypeRef.mk "string" "Str" 4)]),
        ("T", RawDef.native)],
      ∀ rr ∈ rawRefsOfDef d.2, rr.kind ≠ "string" →
        rr.name ∈ ([("S", RawDef.struct
          [("m", RawTypeRef.mk "qualifiedIdent" "T" 0), ("s", RawTypeRef.mk "string" "Str" 4)]),
          ("T", RawDef.native)]).map Prod.fst) ∧
    ClosedTable (parse (RawData.mk
      [("S", RawDef.struct
        [("m", RawTypeRef.mk "qualifiedIdent" "T" 0), ("s", RawTypeRef.mk "string" "Str" 4)]),
        ("T", RawDef.native)] [] [])).1 :=
  ⟨by decide, claim_C3_amended (RawData.mk
    [("S", RawDef.struct
      [("m", RawTypeRef.mk "qualifiedIdent" "T" 0), ("s", RawTypeRef.mk "string" "Str" 4)]),
      ("T", RawDef.native)] [] []) (by decide)⟩

/-- Counterexample to claim C4: a closed, acyclic table in which a struct
references an array type; the two-pass order emits the aggregate before
the array it references, so the emitted sequence is not dependency
ordered. -/
theorem claim_C4_counterexample :
    ClosedTable [("S", TypeInfo.struct [("m", "A")]), ("A", TypeInfo.array 3 "N"),
      ("N", TypeInfo.native)] ∧
    emittedTypes [("S", TypeInfo.struct [("m", "A")]), ("A", TypeInfo.array 3 "N"),
      ("N", TypeInfo.native)] =
      [Entity.primitiveType "N", Entity.aggregateType "S" [("m", "A")],
        Entity.arrayType "A" "N"] ∧
    ¬ DepOrdered (emittedTypes [("S", TypeInfo.struct [("m", "A")]),
      ("A", TypeInfo.array 3 "N"), ("N", TypeInfo.native)]) := by
  refine ⟨by decide, by decide, by decide⟩

/-- Claim C4 amended: provided every type referenced by a struct or array
entry resolves to a native or enum entry of the table (the two-level shape
the source relies on), the two-pass order emits every aggregate and array
entity strictly after all the types it references. -/
theorem claim_C4_amended (td : List (String × TypeInfo)) (h : LeafRefs td) :
    DepOrdered (emittedTypes td) := by
  show depOrderedB [] (pass1 td ++ pass2 td) = true
  rw [depOrderedB_append_empty_refs (pass1 td) (pass2 td) [] (fun e he => pass1_refs he)]
  apply depOrderedB_of_refs_seen
  intro e he r hr
  obtain ⟨p, hp, hcase⟩ := mem_pass2 he
  have hr2 : r ∈ compositeRefs p.2 := by
    rcases hcase with ⟨ms, hms, rfl⟩ | ⟨sz, et, het, rfl⟩
    · rw [hms]
      simpa [Entity.refs, compositeRefs] using hr
    · rw [het]
      simpa [Entity.refs, compositeRefs] using hr
  have hleaf := h p hp r hr2
  cases hg : dictGet r td with
  | none => rw [hg] at hleaf; simp at hleaf
  | some ti =>
    rw [hg] at hleaf
    have hl2 : isLeaf ti = true := by simpa using hleaf
    have hmem := mem_pass1_name hg hl2
    simpa using hmem

/-- Witness for claim C4 amended: a table whose composites reference only
declared native entries is emitted in dependency order. -/
theorem claim_C4_witness :
    LeafRefs [("N", TypeInfo.native), ("E", TypeInfo.enum "N" [("OK", 0)]),
      ("S", TypeInfo.struct [("x", "N")]), ("A", TypeInfo.array 2 "N")] ∧
    DepOrdered (emittedTypes [("N", TypeInfo.native), ("E", TypeInfo.enum "N" [("OK", 0)]),
      ("S", TypeInfo.struct [("x", "N")]), ("A", TypeInfo.array 2 "N")]) :=
  ⟨by decide, claim_C4_amended _ (by decide)⟩

/-- Counterexample to claim C6: a packet referencing a channel name absent
from the channel mapping produces exactly one unknown-typed scalar field
step and nothing else; in particular the loop emits no UnresolvedReference
diagnostic (no warn step appears in its output). -/
theorem claim_C6_counterexample :
    packetLoop [("known", "T")] [] ["ghost"] = [PStep.addParam "ghost" none] := by
  decide

/-- Claim C6 amended: the packet loop handles its channels in order; for
each channel, when the resolved type is a key of the array-size index an
array field of the recorded length is added, otherwise a scalar field; a
channel absent from the channel mapping yields an unknown (none) typed
scalar field and no crash; no diagnostic is emitted. -/
theorem claim_C6_amended (channels_types : List (String × String))
    (array_sizes : List (String × Int)) (chans : List String) (cn : String) :
    packetLoop channels_types array_sizes chans =
      chans.map (channelStep channels_types array_sizes) ∧
    (∀ t s, dictGet cn channels_types = some t → dictGet t array_sizes = some s →
      channelStep channels_types array_sizes cn = PStep.addArray cn t s) ∧
    (∀ t, dictGet cn channels_types = some t → dictGet t array_sizes = none →
      channelStep channels_types array_sizes cn = PStep.addParam cn (some t)) ∧
    (dictGet cn channels_types = none →
      channelStep channels_types array_sizes cn = PStep.addParam cn none) := by
  refine ⟨?_, ?_, ?_, ?_⟩
  · induction chans with
    | nil => rfl
    | cons c rest ih =>
      rw [List.map_cons, ← ih]
      rfl
  · intro t s h1 h2
    simp only [channelStep, h1, h2]
  · intro t h1 h2
    simp only [channelStep, h1, h2]
  · intro h1
    simp only [channelStep, h1]

/-- Witness for claim C6 amended: the three lookup situations at concrete
mappings. -/
theorem claim_C6_witness :
    (dictGet "c1" [("c1", "A"), ("c2", "N")] = some "A" ∧
      dictGet "A" [("A", (3 : Int))] = some 3 ∧
      channelStep [("c1", "A"), ("c2", "N")] [("A", 3)] "c1" = PStep.addArray "c1" "A" 3) ∧
    (dictGet "c2" [("c1", "A"), ("c2", "N")] = some "N" ∧
      dictGet "N" [("A", (3 : Int))] = none ∧
      channelStep [("c1", "A"), ("c2", "N")] [("A", 3)] "c2" = PStep.addParam "c2" (some "N")) ∧
    (dictGet "zz" [("c1", "A"), ("c2", "N")] = none ∧
      channelStep [("c1", "A"), ("c2", "N")] [("A", 3)] "zz" = PStep.addParam "zz" none) := by
  refine ⟨⟨by decide, by decide, ?_⟩, ⟨by decide, by decide, ?_⟩, ⟨by decide, ?_⟩⟩
  · exact (claim_C6_amended [("c1", "A"), ("c2", "N")] [("A", 3)] [] "c1").2.1 "A" 3
      (by decide) (by decide)
  · exact (claim_C6_amended [("c1", "A"), ("c2", "N")] [("A", 3)] [] "c2").2.2.1 "N"
      (by decide) (by decide)
  · exact (claim_C6_amended [("c1", "A"), ("c2", "N")] [("A", 3)] [] "zz").2.2.2 (by decide)

end F2Y
